import Mathlib

/-!
Verification of the concurrent link-annotation pipeline of `src/bitly.go`
(`ExtendLinksWithBitly`, `getBitlyLink`, `getBitlyLinks`, `parseJiraLinks`,
`extendLinksWithBitlyUrls`).

Embedding notes.
* The external URL-shortening service (`b.Links.Shorten`) is an external
  collaborator; it is abstracted as a pure function
  `shorten : String → Link × Option String` (result link, Go `error`;
  `none` is Go `nil`).
* Concurrency: each goroutine of the fan-out loop deterministically
  computes the single message it sends on the completion channel.  The only
  nondeterminism is the arrival order on the channel, which is passed to
  the aggregation phase explicitly as a list `arrival`, a permutation of
  `dispatchedResults` (the messages of all dispatched goroutines).
* Go runtime panics (index out of range, string-slice out of range, and
  the explicit `panic("bad bitlyLink name")`) abort the whole process; they
  are modelled by the `GoPanic` error outcome of `Except`.
* The caller's decoded JSON `data` holds issue records by reference (Go
  maps are reference types).  The records live on a heap (`List Issue`)
  and the caller's collection is a list of addresses into that heap, so
  that in-place mutation of the caller's records is observable.
-/

/-- Shortened-link record returned by the external URL-shortening client
(the `bitly.Link` type; the source reads and writes only its `URL` field,
and the spec's interface for the service is
`shorten(longURL) -> (shortURL, error)`). -/
structure Link where
  URL : String
  deriving Repr, DecidableEq, Inhabited

/-- Per-issue output record `OutputLinkMap` of src/bitly.go: the two
shortened links attached to one issue. -/
structure OutputLinkMap where
  JiraLink : Link
  StashLink : Link
  deriving Repr, DecidableEq, Inhabited

/-- A named URL template, `InputLinkMap` of src/bitly.go. -/
structure InputLinkMap where
  name : String
  url : String
  urlTemplate : String
  deriving Repr, DecidableEq, Inhabited

/-- The message a worker sends on the completion channel, `BitlyLink` of
src/bitly.go: slot index, spec name, shortened link.  Note that the type
has no error field. -/
structure BitlyLink where
  index : Nat
  name : String
  link : Link
  deriving Repr, DecidableEq, Inhabited

/-- Go runtime panic outcomes of the aggregation and merge code:
`indexRange` for a slice index out of range, `sliceBounds` for a string
slice `URL[7:]` on a string shorter than 7 bytes, and `badBitlyLinkName`
for the explicit `panic("bad bitlyLink name")`. -/
inductive GoPanic where
  | badBitlyLinkName
  | sliceBounds
  | indexRange
  deriving Repr, DecidableEq

/-- Zero value of `OutputLinkMap`, as produced by
`make([]OutputLinkMap, numKeys)`. -/
def emptyOutput : OutputLinkMap :=
  { JiraLink := { URL := "" }, StashLink := { URL := "" } }

/-- One scan step of Go `strings.Replace(s, old, new, -1)` on the character
list of `s`, for a non-empty pattern: non-overlapping left-to-right
replacement of every occurrence.  The fuel argument (instantiated with the
length of `s`) only makes the recursion structural; it never runs out,
because every step consumes at least one character of the scanned list. -/
def replaceLoop (pat repl : List Char) : Nat → List Char → List Char
  | _, [] => []
  | 0, s => s
  | fuel + 1, c :: rest =>
    if pat.isPrefixOf (c :: rest) then
      repl ++ replaceLoop pat repl fuel ((c :: rest).drop pat.length)
    else
      c :: replaceLoop pat repl fuel rest

/-- Go `strings.Replace(s, old, new, -1)` as called by the worker.  The
source only ever passes the non-empty pattern `"${issueName}"`; for an
empty pattern this embedding returns `s` unchanged. -/
def goStringsReplace (s pat repl : String) : String :=
  if pat.data.isEmpty then s
  else { data := replaceLoop pat.data repl.data s.data.length s.data }

/-- `getBitlyLink` of src/bitly.go: call the shortening service on
`link.url` and wrap the answer in a `BitlyLink` (the index field is the Go
zero value `0`, set later by the caller); the service error is returned
alongside. -/
def getBitlyLink (shorten : String → Link × Option String) (link : InputLinkMap) :
    BitlyLink × Option String :=
  let r := shorten link.url
  ({ index := 0, name := link.name, link := r.1 }, r.2)

/-- The body of one dispatched goroutine of `getBitlyLinks` (src/bitly.go
lines 49-56): substitute the issue name into the template, call
`getBitlyLink`, discard the returned error (`bitlyLink, _ := ...`), stamp
the slot index, and produce the single message sent on the channel. -/
def workerResult (shorten : String → Link × Option String) (i : Nat)
    (issueName : String) (link : InputLinkMap) : BitlyLink :=
  let url := goStringsReplace link.urlTemplate "${issueName}" issueName
  let sent := getBitlyLink shorten { link with url := url }
  { sent.1 with index := i }

/-- All messages produced by the fan-out loops of `getBitlyLinks`
(src/bitly.go lines 47-58): one message per (spec, issue) pair, outer loop
over the specs, inner loop over the indexed issue names.  Each dispatched
goroutine sends exactly its one message on the channel. -/
def dispatchedResults (shorten : String → Link × Option String)
    (jiraIssueList : List String) (linkList : List InputLinkMap) : List BitlyLink :=
  linkList.flatMap fun link =>
    jiraIssueList.enum.map fun p => workerResult shorten p.1 p.2 link

/-- Byte slice `s[7:]` of a Go string (well defined when `7 ≤ len(s)`). -/
def sliceFrom7 (s : String) : String := s.extract ⟨7⟩ s.endPos

/-- One iteration of the aggregation loop of `getBitlyLinks` (src/bitly.go
lines 60-76): read the slot at the message's index, route by spec name
(`"jira"` / `"stash"`), overwrite the routed field with the received link,
strip the first 7 bytes of its URL (`URL[7:]`), and write the slot back.
The Go runtime checks are modelled in source order: the slot read panics
on an out-of-range index, the unrecognized-name branch is the explicit
`panic("bad bitlyLink name")`, and the string slice panics when the URL is
shorter than 7 bytes. -/
def aggregateStep (out : List OutputLinkMap) (bl : BitlyLink) :
    Except GoPanic (List OutputLinkMap) :=
  if h : bl.index < out.length then
    let current := out.get ⟨bl.index, h⟩
    if bl.name = "jira" then
      if 7 ≤ bl.link.URL.utf8ByteSize then
        .ok (out.set bl.index
          { current with JiraLink := { bl.link with URL := sliceFrom7 bl.link.URL } })
      else
        .error .sliceBounds
    else if bl.name = "stash" then
      if 7 ≤ bl.link.URL.utf8ByteSize then
        .ok (out.set bl.index
          { current with StashLink := { bl.link with URL := sliceFrom7 bl.link.URL } })
      else
        .error .sliceBounds
    else
      .error .badBitlyLinkName
  else
    .error .indexRange

/-- The aggregation loop, consuming received messages in arrival order. -/
def aggLoop : List OutputLinkMap → List BitlyLink → Except GoPanic (List OutputLinkMap)
  | out, [] => .ok out
  | out, bl :: rest =>
    match aggregateStep out bl with
    | .ok out' => aggLoop out' rest
    | .error e => .error e

/-- The aggregation phase of `getBitlyLinks`: starting from the zero-valued
table `make([]OutputLinkMap, numKeys)` consume the `numKeys * numLinks`
received messages in arrival order. -/
def aggregate (numKeys : Nat) (received : List BitlyLink) :
    Except GoPanic (List OutputLinkMap) :=
  aggLoop (List.replicate numKeys emptyOutput) received

/-- `getBitlyLinks` (src/bitly.go lines 41-79) as a function of the arrival
order of the worker messages: the table produced by the aggregation loop,
paired with the function's error result, which is literally `nil`
(`return out, nil`).  `arrival` is the sequence received on the channel, a
permutation of `dispatchedResults shorten jiraIssueList linkList`. -/
def getBitlyLinks (jiraIssueList : List String) (arrival : List BitlyLink) :
    Except GoPanic (List OutputLinkMap × Option String) :=
  match aggregate jiraIssueList.length arrival with
  | .ok out => .ok (out, none)
  | .error e => .error e

/-- One issue record of the caller's decoded JSON data: the Go value
`map[string]interface{}` with its `"key"` entry and (after merging) its
optional `"bitlyLink"` entry.  Records are heap-allocated and passed by
reference, as Go maps are. -/
structure Issue where
  key : String
  bitlyLink : Option OutputLinkMap
  deriving Repr, DecidableEq, Inhabited

/-- `parseJiraLinks` (src/bitly.go lines 81-93): read the `"key"` string of
every issue record, in order.  `heap` is the store of issue records and the
argument list holds the caller's references into it; a dangling reference
(impossible for real Go data) yields `none`. -/
def parseJiraLinks (heap : List Issue) : List Nat → Option (List String)
  | [] => some []
  | a :: rest =>
    match heap[a]? with
    | some r => (parseJiraLinks heap rest).map fun ks => r.key :: ks
    | none => none

/-- The loop of `extendLinksWithBitlyUrls` (src/bitly.go lines 95-105):
`for i, v := range issues { issue["bitlyLink"] = bitlyLinkList[i] }`.
Each iteration stores table entry `i` into the issue record that the
caller's `i`-th reference points at - an in-place update of the heap.
Indexing `bitlyLinkList[i]` out of range is the Go panic; a dangling
reference (impossible for real Go data) is modelled by the same panic. -/
def extendLoop (tbl : List OutputLinkMap) :
    Nat → List Issue → List Nat → Except GoPanic (List Issue)
  | _, heap, [] => .ok heap
  | i, heap, a :: rest =>
    match heap[a]? with
    | some r =>
      match tbl[i]? with
      | some m => extendLoop tbl (i + 1) (heap.set a { r with bitlyLink := some m }) rest
      | none => .error .indexRange
    | none => .error .indexRange

/-- `extendLinksWithBitlyUrls`: run the merge loop from index 0; the
returned data is the caller's same references, pointing into the updated
heap. -/
def extendLinksWithBitlyUrls (heap : List Issue) (issues : List Nat)
    (tbl : List OutputLinkMap) : Except GoPanic (List Issue) :=
  extendLoop tbl 0 heap issues

/-- The `jiraLink` spec built by `ExtendLinksWithBitly` (the `url` field is
the Go zero value, filled in by each worker). -/
def jiraLink : InputLinkMap :=
  { name := "jira", url := "", urlTemplate := "https://jira.cfops.it/browse/${issueName}" }

/-- The `stashLink` spec built by `ExtendLinksWithBitly`. -/
def stashLink : InputLinkMap :=
  { name := "stash", url := "",
    urlTemplate := "https://stash.cfops.it/projects/APPS/repos/app/browse?at=refs%2Fheads%2F${issueName}" }

/-- The fixed registry `linksToExtend` of `ExtendLinksWithBitly`. -/
def linksToExtend : List InputLinkMap := [jiraLink, stashLink]

/-- `ExtendLinksWithBitly` (src/bitly.go lines 25-33) as a function of the
shortening-service behaviour and of the arrival order of worker messages
(a permutation of `dispatchedResults shorten keys linksToExtend`): parse
the issue keys, run dispatch and aggregation, merge the result table into
the caller's records, and return the updated data together with the error
result of `getBitlyLinks`. -/
def ExtendLinksWithBitly (shorten : String → Link × Option String)
    (heap : List Issue) (issues : List Nat) (arrival : List BitlyLink) :
    Except GoPanic (List Issue × Option String) :=
  match parseJiraLinks heap issues with
  | none => .error .indexRange
  | some keys =>
    match getBitlyLinks keys arrival with
    | .error e => .error e
    | .ok (tbl, err) =>
      match extendLinksWithBitlyUrls heap issues tbl with
      | .error e => .error e
      | .ok heap' => .ok (heap', err)

/-- The pure update a successful aggregation step performs on its own
slot: route by name and overwrite the routed field with the received URL
stripped of its first 7 bytes. -/
def applyRes (bl : BitlyLink) (cur : OutputLinkMap) : OutputLinkMap :=
  if bl.name = "jira" then { cur with JiraLink := { URL := sliceFrom7 bl.link.URL } }
  else { cur with StashLink := { URL := sliceFrom7 bl.link.URL } }

/-- Success condition of one aggregation step on a table of length `n`:
the index is in range, the name is registered and the URL is at least 7
bytes long. -/
def stepOK (n : Nat) (bl : BitlyLink) : Prop :=
  bl.index < n ∧ (bl.name = "jira" ∨ bl.name = "stash") ∧ 7 ≤ bl.link.URL.utf8ByteSize

instance (n : Nat) (bl : BitlyLink) : Decidable (stepOK n bl) := by
  unfold stepOK; infer_instance

/-- The routing key of a worker message: (slot index, spec name). -/
def resKey (bl : BitlyLink) : Nat × String := (bl.index, bl.name)

/-- Pure evolution of slot `i` of the table along a message list. -/
def slotFold (i : Nat) (l : List BitlyLink) (cur : OutputLinkMap) : OutputLinkMap :=
  l.foldl (fun c r => if r.index = i then applyRes r c else c) cur

/-- A shortening service that fails on every call, returning the Go zero
value of `bitly.Link` and a non-nil error. -/
def failingShortener : String → Link × Option String :=
  fun _ => ({ URL := "" }, some "service unavailable")

/-- A shortening service that succeeds on every call with an empty URL. -/
def emptyURLShortener : String → Link × Option String :=
  fun _ => ({ URL := "" }, none)

/-- A shortening service that succeeds on every call with a well-formed
short URL. -/
def okShortener : String → Link × Option String :=
  fun _ => ({ URL := "http://sho.rt" }, none)

/-- A shortening service that fails for exactly one (issue, spec) pair -
the jira link of issue "AB-2" - and succeeds for every other call. -/
def oneFailShortener : String → Link × Option String :=
  fun u =>
    if u = "https://jira.cfops.it/browse/AB-2" then ({ URL := "" }, some "service unavailable")
    else ({ URL := "http://sho.rt" }, none)

/-- A one-issue heap. -/
def heap1 : List Issue := [{ key := "AB-1", bitlyLink := none }]

/-- A two-issue heap. -/
def heap2 : List Issue :=
  [{ key := "AB-1", bitlyLink := none }, { key := "AB-2", bitlyLink := none }]

theorem aggregateStep_eq_ok {out : List OutputLinkMap} {bl : BitlyLink} {out' : List OutputLinkMap} :
    aggregateStep out bl = .ok out' ↔
      stepOK out.length bl ∧
        out' = out.set bl.index (applyRes bl (out.getD bl.index emptyOutput)) := by
  unfold aggregateStep
  split
  case isTrue h =>
    split
    case isTrue hj =>
      split
      case isTrue hlen =>
        constructor
        · intro he
          cases he
          refine ⟨⟨h, Or.inl hj, hlen⟩, ?_⟩
          simp [applyRes, hj, List.getD_eq_getElem _ _ h, List.get_eq_getElem, List.getElem?_eq_getElem h, Option.getD_some]
        · rintro ⟨hok, rfl⟩
          congr 1
          simp [applyRes, hj, List.getD_eq_getElem _ _ h, List.get_eq_getElem, List.getElem?_eq_getElem h, Option.getD_some]
      case isFalse hlen =>
        constructor
        · intro he; exact absurd he (by simp)
        · rintro ⟨⟨_, _, hl⟩, _⟩; exact absurd hl hlen
    case isFalse hj =>
      split
      case isTrue hs =>
        split
        case isTrue hlen =>
          constructor
          · intro he
            cases he
            refine ⟨⟨h, Or.inr hs, hlen⟩, ?_⟩
            simp [applyRes, hj, List.getD_eq_getElem _ _ h, List.get_eq_getElem, List.getElem?_eq_getElem h, Option.getD_some]
          · rintro ⟨hok, rfl⟩
            congr 1
            simp [applyRes, hj, List.getD_eq_getElem _ _ h, List.get_eq_getElem, List.getElem?_eq_getElem h, Option.getD_some]
        case isFalse hlen =>
          constructor
          · intro he; exact absurd he (by simp)
          · rintro ⟨⟨_, _, hl⟩, _⟩; exact absurd hl hlen
      case isFalse hs =>
        constructor
        · intro he; exact absurd he (by simp)
        · rintro ⟨⟨_, hn, _⟩, _⟩
          rcases hn with hn | hn
          · exact absurd hn hj
          · exact absurd hn hs
  case isFalse h =>
    constructor
    · intro he; exact absurd he (by simp)
    · rintro ⟨⟨hi, _, _⟩, _⟩; exact absurd hi h

theorem getD_set_self {l : List OutputLinkMap} {i : Nat} (h : i < l.length)
    (v d : OutputLinkMap) : (l.set i v).getD i d = v := by
  unfold List.getD
  rw [List.get?_eq_getElem?, List.getElem?_set_self h]
  rfl

theorem getD_set_ne {l : List OutputLinkMap} {i j : Nat} (h : i ≠ j)
    (v d : OutputLinkMap) : (l.set i v).getD j d = l.getD j d := by
  unfold List.getD
  rw [List.get?_eq_getElem?, List.get?_eq_getElem?, List.getElem?_set_ne h]

theorem aggLoop_ok_length : ∀ {l : List BitlyLink} {t t' : List OutputLinkMap},
    aggLoop t l = .ok t' → t'.length = t.length := by
  intro l
  induction l with
  | nil => intro t t' h; cases h; rfl
  | cons r rest ih =>
    intro t t' h
    unfold aggLoop at h
    cases hstep : aggregateStep t r with
    | ok t1 =>
      rw [hstep] at h
      obtain ⟨_, ht1⟩ := aggregateStep_eq_ok.mp hstep
      rw [ih h, ht1, List.length_set]
    | error e => rw [hstep] at h; exact absurd h (by simp)

theorem aggLoop_ok_iff : ∀ {l : List BitlyLink} {t : List OutputLinkMap},
    (∃ t', aggLoop t l = .ok t') ↔ ∀ r ∈ l, stepOK t.length r := by
  intro l
  induction l with
  | nil => intro t; simp [aggLoop]
  | cons r rest ih =>
    intro t
    constructor
    · rintro ⟨t', h⟩
      unfold aggLoop at h
      cases hstep : aggregateStep t r with
      | ok t1 =>
        rw [hstep] at h
        obtain ⟨hok, ht1⟩ := aggregateStep_eq_ok.mp hstep
        intro x hx
        cases hx with
        | head => exact hok
        | tail _ hx =>
          have hlen : t1.length = t.length := by rw [ht1, List.length_set]
          have := ih.mp ⟨t', h⟩ x hx
          rwa [hlen] at this
      | error e => rw [hstep] at h; exact absurd h (by simp)
    · intro hall
      have hr := hall r (List.mem_cons_self r rest)
      have hstep : aggregateStep t r = .ok (t.set r.index (applyRes r (t.getD r.index emptyOutput))) :=
        aggregateStep_eq_ok.mpr ⟨hr, rfl⟩
      have hlen : (t.set r.index (applyRes r (t.getD r.index emptyOutput))).length = t.length :=
        List.length_set ..
      obtain ⟨t', h'⟩ := ih.mpr (fun x hx => by rw [hlen]; exact hall x (List.mem_cons_of_mem _ hx))
      exact ⟨t', by unfold aggLoop; rw [hstep]; exact h'⟩

theorem aggLoop_get : ∀ {l : List BitlyLink} {t t' : List OutputLinkMap},
    aggLoop t l = .ok t' → ∀ i, i < t.length →
      t'[i]? = some (slotFold i l (t.getD i emptyOutput)) := by
  intro l
  induction l with
  | nil =>
    intro t t' h i hi
    cases h
    simp [slotFold, List.getD_eq_getElem _ _ hi, List.getElem?_eq_getElem hi]
  | cons r rest ih =>
    intro t t' h i hi
    unfold aggLoop at h
    cases hstep : aggregateStep t r with
    | ok t1 =>
      rw [hstep] at h
      obtain ⟨hok, ht1⟩ := aggregateStep_eq_ok.mp hstep
      have hlen : t1.length = t.length := by rw [ht1, List.length_set]
      have hi1 : i < t1.length := by rw [hlen]; exact hi
      rw [ih h i hi1]
      have hcons : slotFold i (r :: rest) (t.getD i emptyOutput)
          = slotFold i rest
              (if r.index = i then applyRes r (t.getD i emptyOutput) else t.getD i emptyOutput) := by
        simp [slotFold, List.foldl_cons]
      rw [hcons]
      congr 2
      by_cases hidx : r.index = i
      · subst hidx
        rw [ht1, if_pos rfl, getD_set_self hok.1]
      · rw [ht1, if_neg hidx, getD_set_ne hidx]
    | error e => rw [hstep] at h; exact absurd h (by simp)

theorem slotFold_filter (i : Nat) : ∀ (l : List BitlyLink) (c : OutputLinkMap),
    slotFold i l c = (l.filter fun r => r.index == i).foldl (fun c r => applyRes r c) c := by
  intro l
  induction l with
  | nil => intro c; rfl
  | cons r rest ih =>
    intro c
    by_cases h : r.index = i
    · simp only [slotFold, List.foldl_cons, List.filter_cons, h, if_pos rfl, beq_self_eq_true,
        ite_true]
      exact ih (applyRes r c)
    · have hb : (r.index == i) = false := beq_eq_false_iff_ne.mpr h
      simp only [slotFold, List.foldl_cons, List.filter_cons, if_neg h, hb]
      exact ih c

theorem eq_of_mem_of_nodup_keys : ∀ {l : List BitlyLink},
    (l.map resKey).Nodup → ∀ x ∈ l, ∀ y ∈ l, resKey x = resKey y → x = y := by
  intro l
  induction l with
  | nil => intro _ x hx; cases hx
  | cons a t ih =>
    intro hnd x hx y hy hkey
    rw [List.map_cons, List.nodup_cons] at hnd
    obtain ⟨hna, hnt⟩ := hnd
    cases hx with
    | head =>
      cases hy with
      | head => rfl
      | tail _ hy =>
        exact absurd (by rw [hkey]; exact List.mem_map_of_mem resKey hy) hna
    | tail _ hx =>
      cases hy with
      | head =>
        exact absurd (by rw [← hkey]; exact List.mem_map_of_mem resKey hx) hna
      | tail _ hy => exact ih hnt x hx y hy hkey

theorem condApply_comm {i : Nat} {l : List BitlyLink}
    (hnd : (l.map resKey).Nodup)
    (hreg : ∀ r ∈ l, r.name = "jira" ∨ r.name = "stash") :
    ∀ x ∈ l, ∀ y ∈ l, ∀ c : OutputLinkMap,
      (if y.index = i then applyRes y (if x.index = i then applyRes x c else c)
        else (if x.index = i then applyRes x c else c))
      = (if x.index = i then applyRes x (if y.index = i then applyRes y c else c)
        else (if y.index = i then applyRes y c else c)) := by
  intro x hx y hy c
  by_cases hxi : x.index = i
  · by_cases hyi : y.index = i
    · by_cases hkey : resKey x = resKey y
      · rw [eq_of_mem_of_nodup_keys hnd x hx y hy hkey]
      · have hnames : x.name ≠ y.name := by
          intro hn
          exact hkey (by simp [resKey, hxi, hyi, hn])
        rcases hreg x hx with hxn | hxn <;> rcases hreg y hy with hyn | hyn
        · exact absurd (hxn.trans hyn.symm) hnames
        · simp [hxi, hyi, applyRes, hxn, hyn]
        · simp [hxi, hyi, applyRes, hxn, hyn]
        · exact absurd (hxn.trans hyn.symm) hnames
    · simp [hxi, hyi]
  · simp [hxi]

theorem slotFold_perm {i : Nat} {l₁ l₂ : List BitlyLink} (hp : l₁.Perm l₂)
    (hnd : (l₁.map resKey).Nodup)
    (hreg : ∀ r ∈ l₁, r.name = "jira" ∨ r.name = "stash") (c : OutputLinkMap) :
    slotFold i l₁ c = slotFold i l₂ c := by
  unfold slotFold
  exact hp.foldl_eq' (fun x hx y hy z => condApply_comm hnd hreg x hx y hy z) c

theorem workerResult_fields (sh : String → Link × Option String) (i : Nat) (nm : String)
    (link : InputLinkMap) :
    (workerResult sh i nm link).index = i ∧ (workerResult sh i nm link).name = link.name ∧
      (workerResult sh i nm link).link
        = (sh (goStringsReplace link.urlTemplate "${issueName}" nm)).1 :=
  ⟨rfl, rfl, rfl⟩

theorem dispatched_two (sh : String → Link × Option String) (keys : List String) :
    dispatchedResults sh keys linksToExtend
      = keys.enum.map (fun p => workerResult sh p.1 p.2 jiraLink)
        ++ keys.enum.map (fun p => workerResult sh p.1 p.2 stashLink) := by
  simp [dispatchedResults, linksToExtend]

theorem dispatchedResults_length (sh : String → Link × Option String)
    (keys : List String) (links : List InputLinkMap) :
    (dispatchedResults sh keys links).length = keys.length * links.length := by
  unfold dispatchedResults
  induction links with
  | nil => simp
  | cons a t ih =>
    simp only [List.flatMap_cons, List.length_append, List.length_map, List.enum_length, ih,
      List.length_cons, Nat.mul_succ]
    omega

theorem mem_enumFrom_fst_le : ∀ (l : List String) (n : Nat) (p : Nat × String),
    p ∈ l.enumFrom n → n ≤ p.1 := by
  intro l
  induction l with
  | nil => intro n p hp; cases hp
  | cons a t ih =>
    intro n p hp
    cases hp with
    | head => exact Nat.le_refl n
    | tail _ hp => exact Nat.le_of_succ_le (ih (n + 1) p hp)

theorem enumFrom_filter_eq : ∀ (l : List String) (n j : Nat) (h : j < l.length),
    (l.enumFrom n).filter (fun p => p.1 == n + j) = [(n + j, l.get ⟨j, h⟩)] := by
  intro l
  induction l with
  | nil => intro n j h; exact absurd h (Nat.not_lt_zero j)
  | cons a t ih =>
    intro n j h
    cases j with
    | zero =>
      simp only [List.enumFrom, List.filter_cons, Nat.add_zero, beq_self_eq_true, ite_true]
      have hnil : (t.enumFrom (n + 1)).filter (fun p => p.1 == n) = [] := by
        rw [List.filter_eq_nil_iff]
        intro p hp
        have := mem_enumFrom_fst_le t (n + 1) p hp
        simp only [beq_iff_eq]
        omega
      rw [hnil]
      rfl
    | succ j' =>
      have hne : (n == n + (j' + 1)) = false := by
        simp only [beq_eq_false_iff_ne, ne_eq]
        omega
      simp only [List.enumFrom, List.filter_cons, hne, Bool.false_eq_true, ite_false]
      have h' : j' < t.length := Nat.lt_of_succ_lt_succ h
      have := ih (n + 1) j' h'
      rw [show n + 1 + j' = n + (j' + 1) by omega] at this
      rw [this]
      rfl

theorem block_keys (sh : String → Link × Option String) (keys : List String)
    (link : InputLinkMap) :
    (keys.enum.map (fun p => workerResult sh p.1 p.2 link)).map resKey
      = keys.enum.map (fun p => (p.1, link.name)) := by
  rw [List.map_map]
  exact List.map_congr_left fun p _ => rfl

theorem block_keys_nodup (sh : String → Link × Option String) (keys : List String)
    (link : InputLinkMap) :
    ((keys.enum.map (fun p => workerResult sh p.1 p.2 link)).map resKey).Nodup := by
  rw [block_keys]
  apply List.Nodup.of_map Prod.fst
  rw [List.map_map]
  have : (Prod.fst ∘ fun p : Nat × String => (p.1, link.name)) = Prod.fst := rfl
  rw [this, List.enum_map_fst]
  exact List.nodup_range _

theorem dispatched_keys_nodup (sh : String → Link × Option String) (keys : List String) :
    ((dispatchedResults sh keys linksToExtend).map resKey).Nodup := by
  rw [dispatched_two, List.map_append]
  apply List.Nodup.append (block_keys_nodup sh keys jiraLink) (block_keys_nodup sh keys stashLink)
  rw [block_keys, block_keys]
  intro k hk1 hk2
  obtain ⟨p, _, rfl⟩ := List.mem_map.mp hk1
  obtain ⟨q, _, hq⟩ := List.mem_map.mp hk2
  have : jiraLink.name = stashLink.name := by
    have h2 := congrArg Prod.snd hq
    simpa using h2.symm
  simp [jiraLink, stashLink] at this

theorem mem_dispatched_two {sh : String → Link × Option String} {keys : List String}
    {r : BitlyLink} (hr : r ∈ dispatchedResults sh keys linksToExtend) :
    r.index < keys.length ∧ (r.name = "jira" ∨ r.name = "stash") ∧
      r.link = (sh (goStringsReplace
        (if r.name = "jira" then jiraLink.urlTemplate else stashLink.urlTemplate)
        "${issueName}" (keys.getD r.index ""))).1 := by
  rw [dispatched_two] at hr
  rcases List.mem_append.mp hr with h | h
  · obtain ⟨p, hp, rfl⟩ := List.mem_map.mp h
    obtain ⟨i, x, rfl⟩ : ∃ i x, p = (i, x) := ⟨p.1, p.2, rfl⟩
    have hmem := List.mk_mem_enum_iff_getElem?.mp hp
    have hlt : i < keys.length := by
      by_contra hge
      rw [List.getElem?_eq_none (Nat.le_of_not_lt hge)] at hmem
      exact Option.noConfusion hmem
    refine ⟨hlt, Or.inl rfl, ?_⟩
    have hget : keys.getD i "" = x := by
      unfold List.getD
      rw [List.get?_eq_getElem?, hmem]; rfl
    simp only [workerResult, getBitlyLink, jiraLink]
    rw [hget]
    simp
  · obtain ⟨p, hp, rfl⟩ := List.mem_map.mp h
    obtain ⟨i, x, rfl⟩ : ∃ i x, p = (i, x) := ⟨p.1, p.2, rfl⟩
    have hmem := List.mk_mem_enum_iff_getElem?.mp hp
    have hlt : i < keys.length := by
      by_contra hge
      rw [List.getElem?_eq_none (Nat.le_of_not_lt hge)] at hmem
      exact Option.noConfusion hmem
    refine ⟨hlt, Or.inr rfl, ?_⟩
    have hget : keys.getD i "" = x := by
      unfold List.getD
      rw [List.get?_eq_getElem?, hmem]; rfl
    have hname : (workerResult sh i x stashLink).name = "stash" := rfl
    simp only [workerResult, getBitlyLink, stashLink, hname]
    rw [hget]
    simp

theorem getD_replicate (n i : Nat) (a : OutputLinkMap) :
    (List.replicate n a).getD i a = a := by
  unfold List.getD
  rw [List.get?_eq_getElem?, List.getElem?_replicate]
  split <;> rfl

theorem aggregate_ok_iff {n : Nat} {received : List BitlyLink} :
    (∃ t, aggregate n received = .ok t) ↔ ∀ r ∈ received, stepOK n r := by
  unfold aggregate
  rw [aggLoop_ok_iff]
  simp [List.length_replicate]

theorem aggregate_length {n : Nat} {received : List BitlyLink} {t : List OutputLinkMap}
    (h : aggregate n received = .ok t) : t.length = n := by
  have := aggLoop_ok_length h
  simpa using this

theorem aggregate_get {n : Nat} {received : List BitlyLink} {t : List OutputLinkMap}
    (h : aggregate n received = .ok t) {i : Nat} (hi : i < n) :
    t[i]? = some (slotFold i received emptyOutput) := by
  have := aggLoop_get h i (by simpa using hi)
  rwa [getD_replicate] at this

theorem aggregate_perm {n : Nat} {l₁ l₂ : List BitlyLink} {t : List OutputLinkMap}
    (hp : l₁.Perm l₂) (hnd : (l₁.map resKey).Nodup)
    (h : aggregate n l₁ = .ok t) : aggregate n l₂ = .ok t := by
  have hok1 : ∀ r ∈ l₁, stepOK n r := aggregate_ok_iff.mp ⟨t, h⟩
  have hok2 : ∀ r ∈ l₂, stepOK n r := fun r hr => hok1 r (hp.mem_iff.mpr hr)
  obtain ⟨t2, h2⟩ := aggregate_ok_iff.mpr hok2
  have hreg : ∀ r ∈ l₁, r.name = "jira" ∨ r.name = "stash" := fun r hr => (hok1 r hr).2.1
  have hteq : t = t2 := by
    apply List.ext_getElem?
    intro i
    by_cases hi : i < n
    · rw [aggregate_get h hi, aggregate_get h2 hi, slotFold_perm hp hnd hreg]
    · rw [List.getElem?_eq_none, List.getElem?_eq_none]
      · rw [aggregate_length h2]; exact Nat.le_of_not_lt hi
      · rw [aggregate_length h]; exact Nat.le_of_not_lt hi
  rw [hteq] at h ⊢
  exact h2

theorem filter_of_map (w : Nat × String → BitlyLink) (p : BitlyLink → Bool) :
    ∀ l : List (Nat × String),
      (l.map w).filter p = (l.filter fun a => p (w a)).map w := by
  intro l
  induction l with
  | nil => rfl
  | cons a t ih =>
    simp only [List.map_cons, List.filter_cons]
    by_cases h : p (w a) = true
    · rw [h]; simp only [ite_true, List.map_cons, ih]
    · have h' : p (w a) = false := Bool.eq_false_iff.mpr h
      rw [h']
      simp only [Bool.false_eq_true, ite_false, ih]

theorem slot_of_dispatched (sh : String → Link × Option String) (keys : List String)
    (i : Nat) (h : i < keys.length) :
    slotFold i (dispatchedResults sh keys linksToExtend) emptyOutput
      = { JiraLink := { URL := sliceFrom7 (sh (goStringsReplace jiraLink.urlTemplate "${issueName}" (keys.get ⟨i, h⟩))).1.URL },
          StashLink := { URL := sliceFrom7 (sh (goStringsReplace stashLink.urlTemplate "${issueName}" (keys.get ⟨i, h⟩))).1.URL } } := by
  rw [slotFold_filter, dispatched_two, List.filter_append]
  rw [filter_of_map, filter_of_map]
  have hpred : ∀ link : InputLinkMap, ∀ a ∈ keys.enum,
      ((workerResult sh a.1 a.2 link).index == i) = (a.1 == i) := fun _ _ _ => rfl
  rw [List.filter_congr (hpred jiraLink), List.filter_congr (hpred stashLink)]
  have henum : keys.enum.filter (fun p => p.1 == i) = [(i, keys.get ⟨i, h⟩)] := by
    have := enumFrom_filter_eq keys 0 i h
    simpa [List.enum] using this
  rw [henum]
  simp only [List.map_cons, List.map_nil, List.foldl_append, List.foldl_cons, List.foldl_nil]
  have hj : (workerResult sh i (keys.get ⟨i, h⟩) jiraLink).name = "jira" := rfl
  have hs : (workerResult sh i (keys.get ⟨i, h⟩) stashLink).name = "stash" := rfl
  simp [applyRes, hj, hs, emptyOutput, workerResult, getBitlyLink, jiraLink, stashLink]

theorem parseJiraLinks_length : ∀ (issues : List Nat) (heap : List Issue) (keys : List String),
    parseJiraLinks heap issues = some keys → keys.length = issues.length := by
  intro issues
  induction issues with
  | nil => intro heap keys h; cases h; rfl
  | cons a rest ih =>
    intro heap keys h
    unfold parseJiraLinks at h
    cases ha : heap[a]? with
    | some r =>
      rw [ha] at h
      cases hrest : parseJiraLinks heap rest with
      | some ks =>
        rw [hrest] at h
        cases h
        simp [ih heap ks hrest]
      | none => rw [hrest] at h; exact absurd h (by simp)
    | none => rw [ha] at h; exact absurd h (by simp)

theorem extendLoop_spec : ∀ (addrs : List Nat) (tbl : List OutputLinkMap) (k : Nat)
    (heap : List Issue), (∀ a ∈ addrs, a < heap.length) → addrs.Nodup →
    ((∀ heap', extendLoop tbl k heap addrs = .ok heap' →
        heap'.length = heap.length ∧
        (∀ j a, addrs[j]? = some a →
          ∃ r m, heap[a]? = some r ∧ tbl[k + j]? = some m ∧
            heap'[a]? = some { r with bitlyLink := some m }) ∧
        (∀ a, a ∉ addrs → heap'[a]? = heap[a]?)) ∧
      (∀ e, extendLoop tbl k heap addrs = .error e → tbl.length < k + addrs.length)) := by
  intro addrs
  induction addrs with
  | nil =>
    intro tbl k heap _ _
    constructor
    · intro heap' h
      cases h
      refine ⟨rfl, ?_, fun a _ => rfl⟩
      intro j a hj
      simp at hj
    · intro e h
      exact absurd h (by simp [extendLoop])
  | cons a rest ih =>
    intro tbl k heap hbound hnd
    have ha : a < heap.length := hbound a (List.mem_cons_self a rest)
    have haget : heap[a]? = some heap[a] := List.getElem?_eq_getElem ha
    rw [List.nodup_cons] at hnd
    obtain ⟨hna, hndrest⟩ := hnd
    constructor
    · intro heap' h
      unfold extendLoop at h
      rw [haget] at h
      cases htbl : tbl[k]? with
      | some m =>
        rw [htbl] at h
        set heap2 := heap.set a { heap[a] with bitlyLink := some m } with hheap2
        have hbound2 : ∀ x ∈ rest, x < heap2.length := by
          intro x hx
          rw [hheap2, List.length_set]
          exact hbound x (List.mem_cons_of_mem _ hx)
        have ihh := (ih tbl (k + 1) heap2 hbound2 hndrest).1 heap' h
        obtain ⟨hlen, hmain, hframe⟩ := ihh
        refine ⟨by rw [hlen, hheap2, List.length_set], ?_, ?_⟩
        · intro j x hj
          cases j with
          | zero =>
            simp only [List.getElem?_cons_zero] at hj
            cases hj
            refine ⟨heap[a], m, haget, by simpa using htbl, ?_⟩
            rw [hframe a hna, hheap2, List.getElem?_set_self ha]
          | succ j' =>
            simp only [List.getElem?_cons_succ] at hj
            obtain ⟨r2, m2, hr2, hm2, hh2⟩ := hmain j' x hj
            have hxmem : x ∈ rest := by
              have := List.getElem?_mem hj
              exact this
            have hxa : a ≠ x := fun he => hna (he ▸ hxmem)
            refine ⟨r2, m2, ?_, ?_, hh2⟩
            · rwa [hheap2, List.getElem?_set_ne hxa] at hr2
            · rwa [show k + 1 + j' = k + (j' + 1) by omega] at hm2
        · intro x hx
          have hxa : a ≠ x := fun he => hx (he ▸ List.mem_cons_self a rest)
          have hxrest : x ∉ rest := fun hm => hx (List.mem_cons_of_mem _ hm)
          rw [hframe x hxrest, hheap2, List.getElem?_set_ne hxa]
      | none =>
        rw [htbl] at h
        exact absurd h (by simp)
    · intro e h
      unfold extendLoop at h
      rw [haget] at h
      cases htbl : tbl[k]? with
      | some m =>
        rw [htbl] at h
        have := (ih tbl (k + 1) (heap.set a { heap[a] with bitlyLink := some m })
          (by intro x hx; rw [List.length_set]; exact hbound x (List.mem_cons_of_mem _ hx))
          hndrest).2 e h
        simp only [List.length_cons]
        omega
      | none =>
        have : tbl.length ≤ k := List.getElem?_eq_none_iff.mp htbl
        simp only [List.length_cons]
        omega

/-- Result message with an unrecognized spec name, used to exercise the
`panic("bad bitlyLink name")` branch. -/
def badRes : BitlyLink := { index := 0, name := "bogus", link := { URL := "http://abcdefgh" } }

/-- A well-formed jira result message. -/
def goodRes : BitlyLink := { index := 0, name := "jira", link := { URL := "http://abcdefgh" } }

/-- A link map used to exercise the merge step. -/
def sampleMap : OutputLinkMap := { JiraLink := { URL := "jx" }, StashLink := { URL := "sx" } }

/-- C1, counterexample: a (issue, spec) pair whose shortening call fails
(`failingShortener` returns a non-nil error) makes the worker emit exactly
the same channel message as a pair whose call succeeds with an empty URL
(`emptyURLShortener`): the message does not carry the failure, so the
aggregator cannot distinguish the two, refuting the claim at this input. -/
theorem c1_cex :
    (failingShortener "https://jira.cfops.it/browse/AB-1").2 = some "service unavailable" ∧
    (emptyURLShortener "https://jira.cfops.it/browse/AB-1").2 = none ∧
    workerResult failingShortener 0 "AB-1" jiraLink
      = workerResult emptyURLShortener 0 "AB-1" jiraLink :=
  ⟨rfl, rfl, rfl⟩

/-- C1, amended: for every (issue, spec) pair the worker emits exactly one
message, carrying the pair's slot index and spec name, but the message
omits the shortening call's error entirely: the emitted message is
unchanged if the service's error component is erased, so a failed call is
indistinguishable from a successful call returning the same link value. -/
theorem c1_error_discarded (sh : String → Link × Option String) (i : Nat) (nm : String)
    (link : InputLinkMap) :
    workerResult sh i nm link = workerResult (fun u => ((sh u).1, none)) i nm link ∧
    (workerResult sh i nm link).index = i ∧ (workerResult sh i nm link).name = link.name :=
  ⟨rfl, rfl, rfl⟩

/-- C2: during aggregation, a step only ever changes the slot at the
processed message's own index (every other slot reads back unchanged), and
consequently the final entry of slot `i` is exactly what aggregating only
the messages with index `i` produces, for every completion order: slot `i`
never contains data computed for another issue `j`. -/
theorem c2_single_writer :
    (∀ (out : List OutputLinkMap) (bl : BitlyLink) (out' : List OutputLinkMap) (i : Nat),
       aggregateStep out bl = .ok out' → i ≠ bl.index → out'[i]? = out[i]?) ∧
    (∀ (n : Nat) (received : List BitlyLink) (t : List OutputLinkMap) (i : Nat),
       aggregate n received = .ok t →
       ∃ tF, aggregate n (received.filter fun r => r.index == i) = .ok tF ∧ t[i]? = tF[i]?) := by
  constructor
  · intro out bl out' i h hne
    obtain ⟨hok, rfl⟩ := aggregateStep_eq_ok.mp h
    exact List.getElem?_set_ne (fun he => hne he.symm)
  · intro n received t i h
    have hall : ∀ r ∈ received, stepOK n r := aggregate_ok_iff.mp ⟨t, h⟩
    obtain ⟨tF, hF⟩ := aggregate_ok_iff.mpr
      (fun r hr => hall r (List.mem_of_mem_filter hr))
    refine ⟨tF, hF, ?_⟩
    by_cases hi : i < n
    · rw [aggregate_get h hi, aggregate_get hF hi]
      rw [slotFold_filter, slotFold_filter, List.filter_filter]
      have heq : (received.filter fun a => a.index == i && a.index == i)
          = received.filter fun r => r.index == i := by
        apply List.filter_congr
        intro a _
        cases hb : a.index == i <;> simp [hb]
      rw [heq]
    · rw [List.getElem?_eq_none, List.getElem?_eq_none]
      · rw [aggregate_length hF]; exact Nat.le_of_not_lt hi
      · rw [aggregate_length h]; exact Nat.le_of_not_lt hi

/-- C2 witness: concrete instance of the filter characterization for a
one-issue run. -/
theorem c2_witness :
    ∃ tF, aggregate 1
        ((dispatchedResults okShortener ["AB-1"] linksToExtend).filter fun r => r.index == 0)
        = .ok tF ∧
      ([{ JiraLink := { URL := "sho.rt" }, StashLink := { URL := "sho.rt" } }] :
        List OutputLinkMap)[0]? = tF[0]? :=
  c2_single_writer.2 1 (dispatchedResults okShortener ["AB-1"] linksToExtend)
    [{ JiraLink := { URL := "sho.rt" }, StashLink := { URL := "sho.rt" } }] 0 rfl

/-- C3, counterexample: with a shortening service that fails (returning the
zero-value link), `ExtendLinksWithBitly` on one issue does not return any
annotated records at all - the aggregation panics on the zero-value URL -
so the call does not produce N records with the failure marked. -/
theorem c3_cex :
    ExtendLinksWithBitly failingShortener heap1 [0]
      (dispatchedResults failingShortener ["AB-1"] linksToExtend) = .error .sliceBounds :=
  rfl

/-- C3, amended: for the code's two registered specs and any service whose
short URLs are always at least 7 bytes long, every arrival order yields a
table with exactly one slot per issue (table length = number of keys =
number of issues) and every slot `i` has both link fields populated with
issue `i`'s own shortened URLs, nothing missing and nothing duplicated;
a failing call is never marked in the table - it panics the aggregation
instead (see the counterexample). -/
theorem c3_success_table (sh : String → Link × Option String) (heap : List Issue)
    (issues : List Nat) (keys : List String) (arrival : List BitlyLink)
    (hp : parseJiraLinks heap issues = some keys)
    (ha : arrival.Perm (dispatchedResults sh keys linksToExtend))
    (hsh : ∀ u, 7 ≤ (sh u).1.URL.utf8ByteSize) :
    ∃ tbl, aggregate keys.length arrival = .ok tbl ∧
      tbl.length = keys.length ∧ keys.length = issues.length ∧
      ∀ i (h : i < keys.length),
        tbl[i]? = some
          { JiraLink := { URL := sliceFrom7 (sh (goStringsReplace jiraLink.urlTemplate "${issueName}" (keys.get ⟨i, h⟩))).1.URL },
            StashLink := { URL := sliceFrom7 (sh (goStringsReplace stashLink.urlTemplate "${issueName}" (keys.get ⟨i, h⟩))).1.URL } } := by
  have hokd : ∀ r ∈ dispatchedResults sh keys linksToExtend, stepOK keys.length r := by
    intro r hr
    obtain ⟨hidx, hname, hlink⟩ := mem_dispatched_two hr
    exact ⟨hidx, hname, by rw [hlink]; exact hsh _⟩
  have hoka : ∀ r ∈ arrival, stepOK keys.length r := fun r hr => hokd r (ha.mem_iff.mp hr)
  obtain ⟨tbl, htbl⟩ := aggregate_ok_iff.mpr hoka
  refine ⟨tbl, htbl, aggregate_length htbl, parseJiraLinks_length issues heap keys hp, ?_⟩
  intro i h
  rw [aggregate_get htbl h]
  have hnd : (arrival.map resKey).Nodup :=
    ((ha.map resKey).nodup_iff).mpr (dispatched_keys_nodup sh keys)
  have hreg : ∀ r ∈ arrival, r.name = "jira" ∨ r.name = "stash" :=
    fun r hr => (hoka r hr).2.1
  rw [slotFold_perm ha hnd hreg, slot_of_dispatched sh keys i h]

/-- C3 witness: the amended theorem at a concrete one-issue input. -/
theorem c3_witness :
    ∃ tbl, aggregate 1 (dispatchedResults okShortener ["AB-1"] linksToExtend) = .ok tbl ∧
      tbl[0]? = some { JiraLink := { URL := "sho.rt" }, StashLink := { URL := "sho.rt" } } := by
  obtain ⟨tbl, h1, _, _, h4⟩ := c3_success_table okShortener heap1 [0] ["AB-1"]
    (dispatchedResults okShortener ["AB-1"] linksToExtend) rfl (List.Perm.refl _)
    (fun _ => (by decide : 7 ≤ ("http://sho.rt" : String).utf8ByteSize))
  exact ⟨tbl, h1, h4 0 (by decide)⟩

/-- C4, counterexample: a single received message with the unrecognized
spec name "bogus" makes the whole aggregation end in the process-aborting
`panic("bad bitlyLink name")`; no structured, recoverable error associated
with the result is produced. -/
theorem c4_cex : aggregate 1 [badRes] = .error .badBitlyLinkName := rfl

/-- C4, amended: a result whose spec name is not one of the registered
names is never handled recoverably: the step reaching it executes the
process-terminating `panic("bad bitlyLink name")`, and an aggregation whose
input contains such a result can never complete successfully. -/
theorem c4_bad_name_aborts :
    (∀ (out : List OutputLinkMap) (r : BitlyLink), r.index < out.length →
       ¬(r.name = "jira" ∨ r.name = "stash") →
       aggregateStep out r = .error .badBitlyLinkName) ∧
    (∀ (n : Nat) (received : List BitlyLink) (r : BitlyLink), r ∈ received →
       ¬(r.name = "jira" ∨ r.name = "stash") → (aggregate n received).isOk = false) := by
  constructor
  · intro out r hidx hname
    push_neg at hname
    unfold aggregateStep
    rw [dif_pos hidx, if_neg hname.1, if_neg hname.2]
  · intro n received r hr hname
    cases ht : aggregate n received with
    | ok t => exact absurd ((aggregate_ok_iff.mp ⟨t, ht⟩ r hr).2.1) hname
    | error e => rfl

/-- C4 witness: the amended theorem at the concrete "bogus"-named result. -/
theorem c4_witness :
    aggregateStep [emptyOutput] badRes = .error .badBitlyLinkName ∧
    (aggregate 1 [badRes]).isOk = false :=
  ⟨c4_bad_name_aborts.1 [emptyOutput] badRes (by decide) (by decide),
   c4_bad_name_aborts.2 1 [badRes] badRes (List.mem_singleton_self _) (by decide)⟩

/-- C5: every successful aggregation step requires the received URL to be
at least 7 bytes long and unconditionally rewrites its slot with the URL's
first 7 bytes stripped (`applyRes` is `URL[7:]`); and on an input where
the shortening service fails - so the worker forwards the zero-value link
with the empty URL - the whole call panics with the string-slice bounds
violation instead of returning. -/
theorem c5_slice_unconditional :
    (∀ (out : List OutputLinkMap) (bl : BitlyLink) (out' : List OutputLinkMap),
       aggregateStep out bl = .ok out' →
         7 ≤ bl.link.URL.utf8ByteSize ∧
         out'[bl.index]? = some (applyRes bl (out.getD bl.index emptyOutput))) ∧
    ExtendLinksWithBitly failingShortener heap1 [0]
      (dispatchedResults failingShortener ["AB-1"] linksToExtend) = .error .sliceBounds := by
  constructor
  · intro out bl out' h
    obtain ⟨hok, rfl⟩ := aggregateStep_eq_ok.mp h
    exact ⟨hok.2.2, List.getElem?_set_self hok.1⟩
  · rfl

/-- C5 witness: the step property at a concrete in-range jira result. -/
theorem c5_witness :
    7 ≤ goodRes.link.URL.utf8ByteSize ∧
    ([{ JiraLink := { URL := "abcdefgh" }, StashLink := { URL := "" } }] :
      List OutputLinkMap)[goodRes.index]?
      = some (applyRes goodRes ([emptyOutput].getD goodRes.index emptyOutput)) :=
  c5_slice_unconditional.1 [emptyOutput] goodRes
    [{ JiraLink := { URL := "abcdefgh" }, StashLink := { URL := "" } }] rfl

/-- C6: the fan-out loops dispatch exactly `numKeys * numLinks` work units
(one channel message each), and every arrival order of those messages -
any permutation consumed by the aggregation loop - has exactly
`numKeys * numLinks` elements, so the aggregation phase consumes exactly
that many results. -/
theorem c6_work_units (sh : String → Link × Option String) (keys : List String)
    (links : List InputLinkMap) :
    (dispatchedResults sh keys links).length = keys.length * links.length ∧
    ∀ arrival : List BitlyLink, arrival.Perm (dispatchedResults sh keys links) →
      arrival.length = keys.length * links.length := by
  refine ⟨dispatchedResults_length sh keys links, ?_⟩
  intro arrival hperm
  rw [hperm.length_eq, dispatchedResults_length]

/-- C6 witness: the dispatch count at a concrete two-issue, two-spec
input. -/
theorem c6_witness :
    (dispatchedResults okShortener ["AB-1", "AB-2"] linksToExtend).length = 2 * 2 ∧
    (dispatchedResults okShortener ["AB-1", "AB-2"] linksToExtend).reverse.length = 2 * 2 :=
  ⟨(c6_work_units okShortener ["AB-1", "AB-2"] linksToExtend).1,
   (c6_work_units okShortener ["AB-1", "AB-2"] linksToExtend).2 _ (List.reverse_perm _)⟩

/-- C7, counterexample: with a service that fails for exactly one
(issue, spec) pair - the jira link of issue "AB-2" - and succeeds for the
other three pairs, the whole `ExtendLinksWithBitly` call aborts with a
panic: the per-pair failure is not carried inline in the annotated data and
the other pairs' results are lost, refuting the claim at this input. -/
theorem c7_cex :
    ExtendLinksWithBitly oneFailShortener heap2 [0, 1]
      (dispatchedResults oneFailShortener ["AB-1", "AB-2"] linksToExtend)
      = .error .sliceBounds :=
  rfl

/-- C7, amended: whenever `ExtendLinksWithBitly` returns at all, its error
result is literally nil (`return out, nil` - the error can never report
anything); and a failure local to one pair is not carried inline: any
received message whose URL is shorter than 7 bytes (in particular the
zero-value link a failed call produces) prevents the aggregation from
completing successfully at all. -/
theorem c7_error_policy :
    (∀ (sh : String → Link × Option String) (heap : List Issue) (issues : List Nat)
       (arrival : List BitlyLink) (res : List Issue × Option String),
       ExtendLinksWithBitly sh heap issues arrival = .ok res → res.2 = none) ∧
    (∀ (n : Nat) (received : List BitlyLink) (r : BitlyLink), r ∈ received →
       r.link.URL.utf8ByteSize < 7 → (aggregate n received).isOk = false) := by
  constructor
  · intro sh heap issues arrival res h
    unfold ExtendLinksWithBitly at h
    cases hp : parseJiraLinks heap issues with
    | none => rw [hp] at h; dsimp only at h; exact absurd h (by simp)
    | some keys =>
      rw [hp] at h
      unfold getBitlyLinks at h
      dsimp only at h
      cases hagg : aggregate keys.length arrival with
      | ok tbl =>
        rw [hagg] at h
        dsimp only at h
        cases hext : extendLinksWithBitlyUrls heap issues tbl with
        | ok heapOut => rw [hext] at h; dsimp only at h; cases h; rfl
        | error e => rw [hext] at h; dsimp only at h; exact absurd h (by simp)
      | error e => rw [hagg] at h; dsimp only at h; exact absurd h (by simp)
  · intro n received r hr hurl
    cases ht : aggregate n received with
    | ok t =>
      have := (aggregate_ok_iff.mp ⟨t, ht⟩ r hr).2.2
      omega
    | error e => rfl

/-- C7 witness: the nil-error fact at a concrete successful run, and the
abort fact at a concrete failed message. -/
theorem c7_witness :
    (([{ key := "AB-1",
         bitlyLink := some { JiraLink := { URL := "sho.rt" }, StashLink := { URL := "sho.rt" } } }],
       (none : Option String)) : List Issue × Option String).2 = none ∧
    (aggregate 1 [{ index := 0, name := "jira", link := { URL := "" } }]).isOk = false :=
  ⟨c7_error_policy.1 okShortener heap1 [0]
      (dispatchedResults okShortener ["AB-1"] linksToExtend)
      ([{ key := "AB-1",
          bitlyLink := some { JiraLink := { URL := "sho.rt" }, StashLink := { URL := "sho.rt" } } }],
        none) rfl,
   c7_error_policy.2 1 [{ index := 0, name := "jira", link := { URL := "" } }]
      { index := 0, name := "jira", link := { URL := "" } }
      (List.mem_singleton_self _) (by decide)⟩

/-- C8, counterexample: merging a one-entry table into a one-issue
collection succeeds and leaves the heap holding the caller's issue record
CHANGED - the record now carries the `"bitlyLink"` entry - so the caller's
issue data is mutated in place, not transformed purely, refuting the claim
at this input. -/
theorem c8_cex :
    extendLinksWithBitlyUrls heap1 [0] [sampleMap]
      = .ok [{ key := "AB-1", bitlyLink := some sampleMap }] ∧
    ([{ key := "AB-1", bitlyLink := some sampleMap }] : List Issue) ≠ heap1 :=
  ⟨rfl, by decide⟩

/-- C8, amended: given in-range, duplicate-free references, a successful
merge attaches table slot `j` to the issue record referenced at position
`j`, for every `j`, by updating that record in place on the heap (records
not referenced are untouched, and the heap keeps its size); and the merge
fails only when the issue collection is strictly longer than the table - a
length disagreement. -/
theorem c8_merge_contract (heap : List Issue) (issues : List Nat)
    (tbl : List OutputLinkMap) (hbound : ∀ a ∈ issues, a < heap.length)
    (hnd : issues.Nodup) :
    (∀ heap', extendLinksWithBitlyUrls heap issues tbl = .ok heap' →
       heap'.length = heap.length ∧
       (∀ (j a : Nat), issues[j]? = some a →
         ∃ (r : Issue) (m : OutputLinkMap), heap[a]? = some r ∧ tbl[j]? = some m ∧
           heap'[a]? = some { r with bitlyLink := some m }) ∧
       (∀ a : Nat, a ∉ issues → heap'[a]? = heap[a]?)) ∧
    (∀ e, extendLinksWithBitlyUrls heap issues tbl = .error e →
       tbl.length < issues.length) := by
  have hspec := extendLoop_spec issues tbl 0 heap hbound hnd
  constructor
  · intro heap' h
    obtain ⟨hlen, hmain, hframe⟩ := hspec.1 heap' h
    refine ⟨hlen, ?_, hframe⟩
    intro j a hj
    have := hmain j a hj
    simpa using this
  · intro e h
    have := hspec.2 e h
    omega

/-- C8 witness: the merge contract at a concrete one-issue input. -/
theorem c8_witness :
    ∃ (r : Issue) (m : OutputLinkMap), heap1[0]? = some r ∧ ([sampleMap] : List OutputLinkMap)[0]? = some m ∧
      ([{ key := "AB-1", bitlyLink := some sampleMap }] : List Issue)[0]?
        = some { r with bitlyLink := some m } := by
  obtain ⟨_, hmain, _⟩ := (c8_merge_contract heap1 [0] [sampleMap] (by decide) (by decide)).1
    [{ key := "AB-1", bitlyLink := some sampleMap }] rfl
  exact hmain 0 0 rfl

/-- C9: with a deterministic shortening service, re-running
`ExtendLinksWithBitly` on the same issue data yields the same annotated
output for every completion/arrival order of the concurrent workers: if one
arrival order returns a result, every other arrival order returns exactly
that result. -/
theorem c9_order_independent (sh : String → Link × Option String) (heap : List Issue)
    (issues : List Nat) (keys : List String) (a1 a2 : List BitlyLink)
    (res : List Issue × Option String)
    (hp : parseJiraLinks heap issues = some keys)
    (h1 : a1.Perm (dispatchedResults sh keys linksToExtend))
    (h2 : a2.Perm (dispatchedResults sh keys linksToExtend))
    (hok : ExtendLinksWithBitly sh heap issues a1 = .ok res) :
    ExtendLinksWithBitly sh heap issues a2 = .ok res := by
  unfold ExtendLinksWithBitly at hok ⊢
  rw [hp] at hok ⊢
  unfold getBitlyLinks at hok ⊢
  dsimp only at hok ⊢
  cases hagg : aggregate keys.length a1 with
  | error e => rw [hagg] at hok; exact absurd hok (by simp)
  | ok tbl =>
    rw [hagg] at hok
    dsimp only at hok
    have hnd1 : (a1.map resKey).Nodup :=
      ((h1.map resKey).nodup_iff).mpr (dispatched_keys_nodup sh keys)
    have hagg2 : aggregate keys.length a2 = .ok tbl :=
      aggregate_perm (h1.trans h2.symm) hnd1 hagg
    rw [hagg2]
    dsimp only
    exact hok

/-- C9 witness: a one-issue run consumed in dispatch order and in reversed
order returns the identical annotated output. -/
theorem c9_witness :
    ExtendLinksWithBitly okShortener heap1 [0]
      (dispatchedResults okShortener ["AB-1"] linksToExtend).reverse
      = .ok ([{ key := "AB-1",
                bitlyLink := some { JiraLink := { URL := "sho.rt" },
                                    StashLink := { URL := "sho.rt" } } }], none) :=
  c9_order_independent okShortener heap1 [0] ["AB-1"]
    (dispatchedResults okShortener ["AB-1"] linksToExtend)
    (dispatchedResults okShortener ["AB-1"] linksToExtend).reverse
    ([{ key := "AB-1",
        bitlyLink := some { JiraLink := { URL := "sho.rt" },
                            StashLink := { URL := "sho.rt" } } }], none)
    rfl (List.Perm.refl _) (List.reverse_perm _) rfl
